import Mathlib

/-!
Verification of the `compressed_collections` chunked compressing vector
(`src/cvec/mod.rs`, `src/cvec/inner.rs`, `src/cvec/cache.rs`,
`src/cvec/iterator.rs`, `src/compression.rs`).

The Rust code is shallowly embedded:

* Byte buffers (`Box<[u8]>`) are `List Nat`.
* The brotli+postcard codec (`src/compression.rs`, `compress`/`decompress`)
  is external to this crate, so it is abstracted as a `Codec` structure: a
  pair of functions together with the round-trip law the crate relies on
  (`decode(encode(x)) == x`).  A concrete executable instance `natCodec`
  is provided; its `compress` records the compression level in the byte
  stream (as brotli does), so distinct levels give distinct bytes for the
  same payload.
* `Vec<T>` is `List T` in Rust's order (index 0 is the front, `Vec::push`
  and `Vec::pop` act at the back).
* Rust panics that the crate proves unreachable on well-formed states
  (`unwrap` of an in-bounds index) are modelled by `Option`-returning
  lookups (`List.get?`); all theorems about those paths are stated on
  reachable states, where the lookup is proven to be `some`.
-/

set_option maxHeartbeats 1000000

namespace CompressedCollections

/-- Abstract model of `src/compression.rs`: `compress` (postcard serialize +
brotli encode at a quality level) and `decompress` (brotli decode + postcard
deserialize) for chunk payloads `Vec<T>`, together with the round-trip law
the crate relies on.  `decompress` does not take the level: the byte stream
is self-describing. -/
structure Codec (T : Type) where
  compress : List T → Int → List Nat
  decompress : List Nat → List T
  round_trip : ∀ (l : List T) (lvl : Int), decompress (compress l lvl) = l

/-- `usize::MAX`, the initial cache index (`Cached::default` in
`src/cvec/cache.rs`). -/
def USIZE_MAX : Nat := 2 ^ 64 - 1

/-- `Cached<T, CHUNK_ELEMS>` (`src/cvec/cache.rs`): the single decompressed
chunk slot.  The `CacheLine` payload (`Box<[T; CHUNK_ELEMS]>`) is modelled
as a bare list; its fixed length is enforced where the code enforces it, in
`CacheLine.deserialize`, through which every cache fill decodes. -/
structure Cached (T : Type) where
  index : Nat
  data : Option (List T)
deriving DecidableEq

/-- The length-mismatch error of `CacheLine::deserialize`
(`src/cvec/cache.rs` lines 105-117): `serde::de::Error::invalid_length`
carries the observed element count and the expected count (`CHUNK_ELEMS`). -/
structure LengthMismatch where
  observed : Nat
  expected : Nat
deriving DecidableEq

/-- `CacheLine::deserialize` (`src/cvec/cache.rs` lines 105-117): decode a
`Vec<T>` and convert it to a `Box<[T; CHUNK_ELEMS]>`, failing with an
`invalid_length` error when the decoded count differs from `CHUNK_ELEMS`.
This is the only chunk-decoding path in the crate that checks the length. -/
def CacheLine.deserialize (codec : Codec T) (chunk : Nat)
    (bytes : List Nat) : Except LengthMismatch (List T) :=
  let data := codec.decompress bytes
  if data.length = chunk then Except.ok data
  else Except.error ⟨data.length, chunk⟩

/-- `Cached::default` (`src/cvec/cache.rs`): index `usize::MAX`, no data. -/
def Cached.init (T : Type) : Cached T := ⟨USIZE_MAX, none⟩

/-- `Cached::is_cached` (`src/cvec/cache.rs`). -/
def Cached.is_cached (c : Cached T) (index : Nat) : Bool :=
  c.data.isSome && c.index == index

/-- `Cached::kill_all` (`src/cvec/cache.rs`): reset to default. -/
def Cached.kill_all (_c : Cached T) : Cached T := Cached.init T

/-- `Cached::fill_cache` (`src/cvec/cache.rs` lines 25-28): decode `data`
into the slot and remember the chunk index.  The decode runs
`decompress::<CacheLine>`, i.e. `CacheLine.deserialize` with its element
count check; a mismatch is unwrapped into a panic (`src/compression.rs`
line 31), modelled as the `Except.error` branch. -/
def Cached.fill_cache (codec : Codec T) (chunk : Nat) (c : Cached T)
    (index : Nat) (data : List Nat) : Except LengthMismatch (Cached T) :=
  let _ := c
  match CacheLine.deserialize codec chunk data with
  | Except.ok line => Except.ok { index := index, data := some line }
  | Except.error e => Except.error e

/-- `<Cached as CacheAccess>::get_compressed` (`src/cvec/cache.rs` lines
123-132): fill on miss (propagating the fill panic as the error branch),
then read `offset` inside the cached line.  Returns the read value and the
updated cache (the Rust method takes `&mut self`). -/
def Cached.get_compressed (codec : Codec T) (chunk : Nat) (c : Cached T)
    (index offset : Nat) (data : List Nat) :
    Except LengthMismatch (Option T × Cached T) :=
  if c.is_cached index then
    Except.ok ((c.data.getD [])[offset]?, c)
  else
    match c.fill_cache codec chunk index data with
    | Except.ok c => Except.ok ((c.data.getD [])[offset]?, c)
    | Except.error e => Except.error e

/-- `CVec` (`src/cvec/inner.rs`): ordered compressed chunks, the
uncompressed tail buffer, and the cache slot (`#[serde(skip)]`). -/
structure CVec (T : Type) where
  compressed_storage : List (List Nat)
  uncompressed_buffer : List T
  cache : Cached T
deriving DecidableEq

/-- `CVecInner::default` (`src/cvec/mod.rs`): all three fields default. -/
def CVec.empty (T : Type) : CVec T := ⟨[], [], Cached.init T⟩

variable {T : Type}

/-- `CVecInner::push` (`src/cvec/mod.rs` lines 111-121): append to the tail;
when the tail reaches `CHUNK_ELEMS` elements, compress the whole tail into a
new chunk at the back of `compressed_storage` and clear the tail. -/
def CVec.push (codec : Codec T) (chunk : Nat) (lvl : Int)
    (s : CVec T) (v : T) : CVec T :=
  let buffer := s.uncompressed_buffer ++ [v]
  if chunk ≤ buffer.length then
    { compressed_storage := s.compressed_storage ++ [codec.compress buffer lvl]
      uncompressed_buffer := []
      cache := s.cache }
  else
    { s with uncompressed_buffer := buffer }

/-- `CVecInner::pop` (`src/cvec/mod.rs` lines 122-135): when the tail is
empty, move the last chunk (if any) back into the tail, killing the cache if
it mirrored exactly that chunk index; then pop the back of the tail. -/
def CVec.pop (codec : Codec T) (s : CVec T) : Option T × CVec T :=
  let s :=
    if s.uncompressed_buffer.isEmpty then
      match s.compressed_storage.getLast? with
      | some x =>
        let storage := s.compressed_storage.dropLast
        let cache :=
          if (s.cache.is_cached storage.length : Bool) then s.cache.kill_all
          else s.cache
        { compressed_storage := storage
          uncompressed_buffer := codec.decompress x
          cache := cache }
      | none => s
    else s
  (s.uncompressed_buffer.getLast?,
    { s with uncompressed_buffer := s.uncompressed_buffer.dropLast })

/-- `CVecInner::len` (`src/cvec/mod.rs` lines 136-138). -/
def CVec.len (chunk : Nat) (s : CVec T) : Nat :=
  s.uncompressed_buffer.length + s.compressed_storage.length * chunk

/-- `CVecInner::is_empty` (`src/cvec/mod.rs` lines 139-141). -/
def CVec.is_empty (s : CVec T) : Bool :=
  s.uncompressed_buffer.isEmpty && s.compressed_storage.isEmpty

/-- `CVecInner::split` (`src/cvec/mod.rs` lines 198-207): global index
`idx` resolves to `Sum.inl (chunk_index, offset)` in compressed storage
when `chunk_index < chunks.count`, to `Sum.inr offset` in the tail when
`chunk_index == chunks.count` and the offset is inside the tail, and to
`none` otherwise. -/
def CVec.split (chunk : Nat) (s : CVec T) (idx : Nat) :
    Option (Nat × Nat ⊕ Nat) :=
  let ci := idx / chunk
  let offset := idx % chunk
  if ci < s.compressed_storage.length then
    some (Sum.inl (ci, offset))
  else if ci = s.compressed_storage.length ∧
      offset < s.uncompressed_buffer.length then
    some (Sum.inr offset)
  else
    none

/-- `CVecInner::get_uncached` (`src/cvec/mod.rs` lines 142-152): decode a
throwaway copy of the owning chunk (`Sum.inl`, the Rust `Either::Left`
owned value) or read the tail in place (`Sum.inr`, the Rust
`Either::Right` reference).  The Rust `.nth(chunk_offset).unwrap()` is
modelled by `List.get?`. -/
def CVec.get_uncached (codec : Codec T) (chunk : Nat)
    (s : CVec T) (idx : Nat) : Option (T ⊕ T) :=
  match s.split chunk idx with
  | some (Sum.inl (ci, offset)) =>
    ((codec.decompress (s.compressed_storage.getD ci []))[offset]?).map
      Sum.inl
  | some (Sum.inr offset) => (s.uncompressed_buffer[offset]?).map Sum.inr
  | none => none

/-- Strip the `Either` tag of a `get_uncached` result: the element value. -/
def valOf : Option (T ⊕ T) → Option T :=
  Option.map (Sum.elim id id)

/-- `CVecInner::get_ref` (`src/cvec/mod.rs` lines 153-163): read through the
`Cached` slot, filling it on a miss.  Returns the value and the updated
container (the Rust method takes `&mut self`; only the cache can change).
The error arm of `get_compressed` is the `CacheLine` length-mismatch panic;
it is proven unreachable on reachable containers (`ChunksOK`), and per the
convention of this file it is mapped to an absent result there. -/
def CVec.get_ref (codec : Codec T) (chunk : Nat)
    (s : CVec T) (idx : Nat) : Option T × CVec T :=
  match s.split chunk idx with
  | some (Sum.inl (ci, offset)) =>
    match s.cache.get_compressed codec chunk ci offset
        (s.compressed_storage.getD ci []) with
    | Except.ok r => (r.1, { s with cache := r.2 })
    | Except.error _ => (none, s)
  | some (Sum.inr offset) => (s.uncompressed_buffer[offset]?, s)
  | none => (none, s)

/-- `RcCached<T, CHUNK_ELEMS>` (`src/cvec/cache.rs`): the `Cached` slot
behind a `RefCell`, plus the number of live shared borrows (`Ref` guards
handed out to `EntryRef` handles) into that `RefCell`.  No mutable borrow
survives between calls (`Entry::borrow` drops its `borrow_mut` before
returning), so a reader count suffices to model the runtime borrow flag. -/
structure RcCached (T : Type) where
  inner : Cached T
  readers : Nat
deriving DecidableEq

/-- The panics `Entry::borrow` can hit: the `BorrowMutError` of
`RefCell::borrow_mut` when a shared borrow is still alive, and the
unwrapped `CacheLine::deserialize` length-mismatch error inside
`fill_cache`. -/
inductive BorrowPanic where
  | alreadyBorrowed
  | lengthMismatch (e : LengthMismatch)
deriving DecidableEq

/-- `Entry::borrow` (`src/cvec/cache.rs` lines 156-176), `Compressed` arm:
check `is_cached`; on a miss take a short exclusive borrow
(`RefCell::borrow_mut`, which panics if any read handle is alive) to run
`fill_cache`; then hand back a shared read borrow (`RefCell::borrow`) held
for the handle's lifetime, through which `offset` is read on deref
(`src/cvec/cache.rs` lines 186-195).  Returns the dereferenced value and the
new borrow state. -/
def Entry.borrowCompressed (codec : Codec T) (chunk : Nat)
    (st : RcCached T) (index offset : Nat) (data : List Nat) :
    Except BorrowPanic (Option T × RcCached T) :=
  if st.inner.is_cached index then
    Except.ok ((st.inner.data.getD [])[offset]?,
      { st with readers := st.readers + 1 })
  else if 0 < st.readers then
    Except.error BorrowPanic.alreadyBorrowed
  else
    match st.inner.fill_cache codec chunk index data with
    | Except.ok inner =>
      Except.ok ((inner.data.getD [])[offset]?,
        { inner := inner, readers := 1 })
    | Except.error e => Except.error (BorrowPanic.lengthMismatch e)

/-- `CVecInner::get` (`src/cvec/mod.rs` lines 165-175): resolve the index,
then clone through the lazy `Entry` handle (`RcCached` cache).  A `get`
call holds no handle across its own boundary, so it starts and ends with
zero outstanding read borrows; the one it creates is dropped at the end of
the expression.  Returns the cloned value and the updated cache slot
(mutated through the `RefCell` despite `&self`). -/
def CVec.get (codec : Codec T) (chunk : Nat)
    (s : CVec T) (idx : Nat) : Option T × Cached T :=
  match s.split chunk idx with
  | some (Sum.inl (ci, offset)) =>
    match Entry.borrowCompressed codec chunk ⟨s.cache, 0⟩ ci offset
      (s.compressed_storage.getD ci []) with
    | Except.ok (v, st) => (v, st.inner)
    | Except.error _ => (none, s.cache)
  | some (Sum.inr offset) => (s.uncompressed_buffer[offset]?, s.cache)
  | none => (none, s.cache)

/-! ### Iterators (`src/cvec/iterator.rs`) -/

/-- `CVecIter` (`src/cvec/iterator.rs` lines 115-119): the borrowing
iterator's own state — the next chunk index and the current inner iterator,
`Either` a draining staging buffer of a decoded chunk (`inl`) or the
remainder of the tail slice (`inr`).  The borrowed container is passed
separately to `next` (immutable, like the `&'i CVecInner` field). -/
structure CVecIter (T : Type) where
  chunk_idx : Nat
  iter : List T ⊕ List T
deriving DecidableEq

/-- `<&CVecInner as IntoIterator>::into_iter` (`src/cvec/iterator.rs`
lines 159-169): chunk index 0, empty slice iterator. -/
def CVec.intoIterBorrow (_s : CVec T) : CVecIter T :=
  ⟨0, Sum.inr []⟩

/-- Remaining length of the current inner iterator. -/
def CVecIter.curLen (it : CVecIter T) : Nat :=
  Sum.elim List.length List.length it.iter

/-- Advance the current inner iterator (`self.iter.as_mut().either(next,
next().cloned())`). -/
def CVecIter.take (it : CVecIter T) : Option T × CVecIter T :=
  match it.iter with
  | Sum.inl l => (l.head?, ⟨it.chunk_idx, Sum.inl l.tail⟩)
  | Sum.inr l => (l.head?, ⟨it.chunk_idx, Sum.inr l.tail⟩)

/-- `CVecIter::next` (`src/cvec/iterator.rs` lines 127-140): when the
current inner iterator is exhausted, stage the next chunk (decoded fresh) or
switch to the tail, advancing `chunk_idx`; past the tail return `None`.
Then pull one element from the inner iterator. -/
def CVecIter.next (codec : Codec T) (s : CVec T) (it : CVecIter T) :
    Option T × CVecIter T :=
  if it.curLen = 0 then
    match s.compressed_storage[it.chunk_idx]? with
    | some x =>
      CVecIter.take ⟨it.chunk_idx + 1, Sum.inl (codec.decompress x)⟩
    | none =>
      if it.chunk_idx = s.compressed_storage.length then
        CVecIter.take ⟨it.chunk_idx + 1, Sum.inr s.uncompressed_buffer⟩
      else (none, it)
  else CVecIter.take it

/-- Drive the borrowing iterator: collect the values of up to `fuel` calls
to `next`, stopping at the first `None`. -/
def CVecIter.collect (codec : Codec T) (s : CVec T) :
    Nat → CVecIter T → List T
  | 0, _ => []
  | fuel + 1, it =>
    match CVecIter.next codec s it with
    | (none, _) => []
    | (some v, it') => v :: CVecIter.collect codec s fuel it'

/-- `CVecIntoIter::next` (`src/cvec/iterator.rs` lines 29-35) is exactly
`pop`; drive it to exhaustion, collecting up to `fuel` values. -/
def CVec.drainCollect (codec : Codec T) : Nat → CVec T → List T
  | 0, _ => []
  | fuel + 1, s =>
    match CVec.pop codec s with
    | (none, _) => []
    | (some v, s') => v :: CVec.drainCollect codec fuel s'

/-! ### Whole-container serialization (`#[derive(Serialize, Deserialize)]`
on `CVec`, `src/cvec/inner.rs` lines 5-11, through `compress`/`decompress`
of `src/compression.rs`) -/

/-- Abstract model of `compress`/`decompress` instantiated at the container
struct itself: the serde derive walks `compressed_storage` and
`uncompressed_buffer` and skips `cache` (`#[serde(skip)]`), so the byte
image is a function of exactly that pair, and decoding inverts it. -/
structure StructCodec (T : Type) where
  compress : List (List Nat) × List T → Int → List Nat
  decompress : List Nat → List (List Nat) × List T
  round_trip : ∀ (p : List (List Nat) × List T) (lvl : Int),
    decompress (compress p lvl) = p

/-- Serialize the whole container (`compress(&cvec, lvl)`): the cache is
skipped. -/
def CVec.serialize (sc : StructCodec T) (s : CVec T) (lvl : Int) :
    List Nat :=
  sc.compress (s.compressed_storage, s.uncompressed_buffer) lvl

/-- Deserialize a whole container (`decompress::<CVec<..>>(bytes)`): the
skipped `cache` field is rebuilt with `Default::default()`. -/
def CVec.deserialize (sc : StructCodec T) (bytes : List Nat) : CVec T :=
  let p := sc.decompress bytes
  ⟨p.1, p.2, Cached.init T⟩

/-! ### Equality (`PartialEq for CVec`, `src/cvec/inner.rs` lines 22-27) -/

/-- `<CVec as PartialEq>::eq`: compare the chunk byte blobs and the tail;
the cache does not participate. -/
def CVec.beq [DecidableEq T] (a b : CVec T) : Bool :=
  decide (a.compressed_storage = b.compressed_storage) &&
    decide (a.uncompressed_buffer = b.uncompressed_buffer)

/-! ### The reference model and the operation language

`Op` is one user-visible mutation (`push`/`pop`); the reference semantics
is the plain uncompressed vector the spec compares against (push appends at
the end, pop removes and returns the last element). -/

inductive Op (T : Type) where
  | push (v : T)
  | pop
deriving DecidableEq

/-- One step of the container: the new state, plus the popped value (for
`pop`; `push` returns nothing). -/
def CVec.step (codec : Codec T) (chunk : Nat) (lvl : Int)
    (s : CVec T) : Op T → CVec T × Option T
  | Op.push v => (s.push codec chunk lvl v, none)
  | Op.pop => ((s.pop codec).2, (s.pop codec).1)

/-- Run a sequence of operations on the container. -/
def CVec.runOps (codec : Codec T) (chunk : Nat) (lvl : Int) :
    CVec T → List (Op T) → CVec T
  | s, [] => s
  | s, op :: ops =>
    CVec.runOps codec chunk lvl (CVec.step codec chunk lvl s op).1 ops

/-- The container's observable trace: for each operation, the popped value
and the `len()` afterwards. -/
def CVec.trace (codec : Codec T) (chunk : Nat) (lvl : Int) :
    CVec T → List (Op T) → List (Option T × Nat)
  | _, [] => []
  | s, op :: ops =>
    let r := CVec.step codec chunk lvl s op
    (r.2, r.1.len chunk) :: CVec.trace codec chunk lvl r.1 ops

/-- One step of the reference uncompressed vector. -/
def refStep (l : List T) : Op T → List T × Option T
  | Op.push v => (l ++ [v], none)
  | Op.pop => (l.dropLast, l.getLast?)

/-- The reference vector's observable trace. -/
def refTrace : List T → List (Op T) → List (Option T × Nat)
  | _, [] => []
  | l, op :: ops =>
    let r := refStep l op
    (r.2, r.1.length) :: refTrace r.1 ops

/-- The abstraction function: the logical element sequence a container
represents — every chunk decoded, in flush order, then the tail. -/
def CVec.absList (codec : Codec T) (s : CVec T) : List T :=
  (s.compressed_storage.map codec.decompress).flatten ++ s.uncompressed_buffer

/-! ### The representation invariant -/

/-- Every stored chunk decodes to exactly `CHUNK_ELEMS` elements. -/
def CVec.ChunksOK (codec : Codec T) (chunk : Nat) (s : CVec T) : Prop :=
  ∀ b ∈ s.compressed_storage, (codec.decompress b).length = chunk

/-- Whenever the cache slot holds data, it mirrors an existing chunk: its
index is in range and its data is that chunk's decoding. -/
def CVec.CacheOK (codec : Codec T) (s : CVec T) : Prop :=
  s.cache.data.isSome = true →
    s.cache.index < s.compressed_storage.length ∧
    s.cache.data =
      some (codec.decompress (s.compressed_storage.getD s.cache.index []))

/-- The full representation invariant of reachable containers. -/
def CVec.Inv (codec : Codec T) (chunk : Nat) (s : CVec T) : Prop :=
  CVec.ChunksOK codec chunk s ∧
    s.uncompressed_buffer.length < chunk ∧
    CVec.CacheOK codec s

instance [DecidableEq T] (codec : Codec T) (chunk : Nat) (s : CVec T) :
    Decidable (CVec.Inv codec chunk s) := by
  unfold CVec.Inv CVec.ChunksOK CVec.CacheOK
  infer_instance

/-- States reachable from the empty container by the public mutating and
cache-touching operations: `push`, `pop`, `get_ref` (which can fill the
`Cached` slot) and `get` (which can fill the `RcCached` slot). -/
inductive CVec.Reachable (codec : Codec T) (chunk : Nat) (lvl : Int) :
    CVec T → Prop where
  | empty : CVec.Reachable codec chunk lvl (CVec.empty T)
  | push {s : CVec T} (v : T) :
      CVec.Reachable codec chunk lvl s →
      CVec.Reachable codec chunk lvl (s.push codec chunk lvl v)
  | pop {s : CVec T} :
      CVec.Reachable codec chunk lvl s →
      CVec.Reachable codec chunk lvl (s.pop codec).2
  | get_ref {s : CVec T} (idx : Nat) :
      CVec.Reachable codec chunk lvl s →
      CVec.Reachable codec chunk lvl (s.get_ref codec chunk idx).2
  | get {s : CVec T} (idx : Nat) :
      CVec.Reachable codec chunk lvl s →
      CVec.Reachable codec chunk lvl
        { s with cache := (s.get codec chunk idx).2 }

/-! ### A concrete executable codec

`natCodec` is a faithful instance of the codec contract for `T = Nat`: the
compression level is recorded at the head of the byte stream (so, like
brotli, different levels give different bytes for the same payload) and
decoding strips it. -/

/-- A concrete chunk codec for `Nat` elements. -/
def natCodec : Codec Nat where
  compress l lvl := lvl.toNat :: l
  decompress b := b.tail
  round_trip _ _ := rfl

/-- Chunk-list encoder for the concrete struct codec: each chunk is written
as its length followed by its bytes. -/
def encChunks (cs : List (List Nat)) : List Nat :=
  cs.flatMap fun c => c.length :: c

/-- Chunk-list decoder: read `n` length-prefixed chunks, returning them and
the remaining bytes. -/
def readChunks : Nat → List Nat → List (List Nat) × List Nat
  | 0, rest => ([], rest)
  | _ + 1, [] => ([], [])
  | n + 1, len :: rest =>
    let r := readChunks n (rest.drop len)
    ((rest.take len) :: r.1, r.2)

/-- A concrete whole-struct codec for `T = Nat`: level, chunk count,
length-prefixed chunks, then the length-prefixed tail. -/
def natStructCodec : StructCodec Nat where
  compress p lvl :=
    lvl.toNat :: p.1.length :: (encChunks p.1 ++ p.2.length :: p.2)
  decompress b :=
    match b with
    | _ :: n :: rest =>
      let r := readChunks n rest
      match r.2 with
      | m :: rest2 => (r.1, rest2.take m)
      | [] => (r.1, [])
    | _ => ([], [])
  round_trip := by
    have key : ∀ (cs : List (List Nat)) (rest : List Nat),
        readChunks cs.length (encChunks cs ++ rest) = (cs, rest) := by
      intro cs
      induction cs with
      | nil => intro rest; rfl
      | cons c cs ih =>
        intro rest
        have h1 : encChunks (c :: cs) ++ rest =
            c.length :: (c ++ (encChunks cs ++ rest)) := by
          simp [encChunks, List.append_assoc]
        rw [h1, List.length_cons]
        simp only [readChunks, List.take_left, List.drop_left, ih]
    intro p lvl
    simp only [key, List.take_length]

/-! ### Basic abstraction lemmas -/

theorem CVec.absList_empty (codec : Codec T) :
    CVec.absList codec (CVec.empty T) = [] := rfl

theorem CVec.length_absList (codec : Codec T) (chunk : Nat) (s : CVec T)
    (h : CVec.ChunksOK codec chunk s) :
    (CVec.absList codec s).length = s.len chunk := by
  unfold CVec.absList CVec.len
  rw [List.length_append, List.length_flatten, List.map_map]
  have h2 : List.map (List.length ∘ codec.decompress) s.compressed_storage
      = List.replicate s.compressed_storage.length chunk :=
    List.map_eq_replicate_iff.mpr (fun x hx => h x hx)
  rw [h2, List.sum_replicate, smul_eq_mul, Nat.add_comm]

theorem CVec.inv_empty (codec : Codec T) (chunk : Nat) (hchunk : 0 < chunk) :
    CVec.Inv codec chunk (CVec.empty T) := by
  refine ⟨fun b hb => absurd hb (List.not_mem_nil b), hchunk, fun h => ?_⟩
  simp [CVec.empty, Cached.init] at h

theorem CVec.absList_push (codec : Codec T) (chunk : Nat) (lvl : Int)
    (s : CVec T) (v : T) :
    CVec.absList codec (s.push codec chunk lvl v) =
      CVec.absList codec s ++ [v] := by
  unfold CVec.push CVec.absList
  by_cases h : chunk ≤ (s.uncompressed_buffer ++ [v]).length
  · simp only [h, if_pos]
    rw [List.map_append]
    simp [codec.round_trip, List.append_assoc]
  · simp only [h, if_neg, not_false_iff]
    simp [List.append_assoc]

theorem CVec.push_inv {codec : Codec T} {chunk : Nat} {lvl : Int}
    {s : CVec T} {v : T} (hchunk : 0 < chunk)
    (h : CVec.Inv codec chunk s) :
    CVec.Inv codec chunk (s.push codec chunk lvl v) := by
  obtain ⟨hc, ht, hcache⟩ := h
  unfold CVec.push
  by_cases hf : chunk ≤ (s.uncompressed_buffer ++ [v]).length
  · simp only [hf, if_pos]
    refine ⟨?_, by simpa using hchunk, ?_⟩
    · intro b hb
      rcases List.mem_append.mp hb with hb | hb
      · exact hc b hb
      · rcases List.mem_singleton.mp hb with rfl
        rw [codec.round_trip]
        simp only [List.length_append, List.length_singleton] at hf ⊢
        omega
    · intro hd
      obtain ⟨hidx, hdata⟩ := hcache hd
      exact ⟨lt_of_lt_of_le hidx (by simp),
        by rw [hdata, List.getD_append _ _ _ _ hidx]⟩
  · simp only [hf, if_neg, not_false_iff]
    refine ⟨hc, ?_, hcache⟩
    simp only [List.length_append, List.length_singleton] at hf ⊢
    omega

theorem CVec.pop_spec {codec : Codec T} {chunk : Nat} {s : CVec T}
    (hchunk : 0 < chunk) (h : CVec.Inv codec chunk s) :
    (s.pop codec).1 = (CVec.absList codec s).getLast? ∧
    CVec.absList codec (s.pop codec).2 = (CVec.absList codec s).dropLast ∧
    CVec.Inv codec chunk (s.pop codec).2 := by
  obtain ⟨cs0, ub0, c0⟩ := s
  obtain ⟨hc, ht, hcache⟩ := h
  rcases List.eq_nil_or_concat ub0 with rfl | ⟨l2, b, hub⟩
  case' inr.intro.intro =>
    -- tail nonempty: pop acts directly on the tail
    rw [List.concat_eq_append] at hub
    subst hub
    have h1 : CVec.pop codec ⟨cs0, l2 ++ [b], c0⟩ =
        (some b, ⟨cs0, l2, c0⟩) := by
      simp [CVec.pop, List.dropLast_concat]
    rw [h1]
    unfold CVec.absList
    rw [← List.append_assoc, List.getLast?_concat, List.dropLast_concat]
    refine ⟨rfl, rfl, hc, ?_, hcache⟩
    simp only [List.length_append, List.length_singleton] at ht ⊢
    omega
  case' inl =>
    rcases List.eq_nil_or_concat cs0 with rfl | ⟨cs, x, hcs⟩
    · -- no chunks either: the container is empty
      have h1 : CVec.pop codec ⟨[], [], c0⟩ = (none, ⟨[], [], c0⟩) := by
        simp [CVec.pop]
      rw [h1]
      exact ⟨rfl, rfl, hc, ht, hcache⟩
    · -- reload the last chunk into the tail, then pop its back
      rw [List.concat_eq_append] at hcs
      subst hcs
      have hxmem : x ∈ cs ++ [x] :=
        List.mem_append_right cs (List.mem_singleton.mpr rfl)
      have hxlen : (codec.decompress x).length = chunk := hc x hxmem
      have hxne : codec.decompress x ≠ [] := by
        intro hnil; rw [hnil] at hxlen; simp at hxlen; omega
      rcases List.eq_nil_or_concat (codec.decompress x) with hnx | ⟨dx, e, hdx⟩
      · exact absurd hnx hxne
      rw [List.concat_eq_append] at hdx
      have h1 : CVec.pop codec ⟨cs ++ [x], [], c0⟩ =
          (some e,
            ⟨cs, dx,
              if c0.is_cached cs.length then Cached.init T else c0⟩) := by
        simp only [CVec.pop, List.isEmpty_nil, if_pos, List.getLast?_concat,
          List.dropLast_concat, Cached.kill_all, hdx]
      rw [h1]
      have habs : CVec.absList codec ⟨cs ++ [x], [], c0⟩ =
          ((List.map codec.decompress cs).flatten ++ dx) ++ [e] := by
        unfold CVec.absList
        simp [hdx, List.append_assoc]
      rw [habs, List.getLast?_concat, List.dropLast_concat]
      have hdxlen : dx.length + 1 = chunk := by
        rw [hdx] at hxlen; simpa using hxlen
      refine ⟨rfl, by unfold CVec.absList; simp, ?_, by simpa using by omega, ?_⟩
      · intro b hb
        exact hc b (List.mem_append_left _ hb)
      · by_cases hk : c0.is_cached cs.length = true
        · unfold CVec.CacheOK
          dsimp only
          rw [if_pos hk]
          intro hd
          simp [Cached.init] at hd
        · unfold CVec.CacheOK
          dsimp only
          rw [if_neg hk]
          intro hd
          obtain ⟨hidx, hdata⟩ := hcache hd
          unfold CVec.CacheOK at hcache
          dsimp only at hidx hdata
          have hne : c0.index ≠ cs.length := fun hidxeq =>
            hk (by simp [Cached.is_cached, hd, hidxeq])
          simp only [List.length_append, List.length_singleton] at hidx
          have hlt : c0.index < cs.length := by omega
          refine ⟨hlt, ?_⟩
          rw [hdata, List.getD_append _ _ _ _ hlt]

/-! ### Trace simulation -/

theorem CVec.trace_sim (codec : Codec T) (chunk : Nat) (lvl : Int)
    (hchunk : 0 < chunk) :
    ∀ (ops : List (Op T)) (s : CVec T), CVec.Inv codec chunk s →
      CVec.trace codec chunk lvl s ops =
        refTrace (CVec.absList codec s) ops := by
  intro ops
  induction ops with
  | nil => intro s _; rfl
  | cons op ops ih =>
    intro s hs
    cases op with
    | push v =>
      have h1 := CVec.absList_push codec chunk lvl s v
      have h2 := @CVec.push_inv T codec chunk lvl s v hchunk hs
      have h3 := ih (s.push codec chunk lvl v) h2
      rw [h1] at h3
      have hlen : (s.push codec chunk lvl v).len chunk =
          (CVec.absList codec s ++ [v]).length := by
        rw [← h1, CVec.length_absList codec chunk _ h2.1]
      simp only [CVec.trace, refTrace, CVec.step, refStep]
      rw [h3, hlen]
    | pop =>
      obtain ⟨hv, habs, hinv⟩ := CVec.pop_spec hchunk hs
      have h3 := ih (s.pop codec).2 hinv
      rw [habs] at h3
      have hlen : (s.pop codec).2.len chunk =
          (CVec.absList codec s).dropLast.length := by
        rw [← habs, CVec.length_absList codec chunk _ hinv.1]
      simp only [CVec.trace, refTrace, CVec.step, refStep]
      rw [h3, hlen, hv]

theorem CVec.runOps_inv (codec : Codec T) (chunk : Nat) (lvl : Int)
    (hchunk : 0 < chunk) :
    ∀ (ops : List (Op T)) (s : CVec T), CVec.Inv codec chunk s →
      CVec.Inv codec chunk (CVec.runOps codec chunk lvl s ops) := by
  intro ops
  induction ops with
  | nil => intro s hs; exact hs
  | cons op ops ih =>
    intro s hs
    cases op with
    | push v => exact ih _ (CVec.push_inv hchunk hs)
    | pop => exact ih _ (CVec.pop_spec hchunk hs).2.2

/-! ### Index-resolution lemmas for `split` -/

theorem CVec.split_eq_inl {chunk : Nat} {s : CVec T} {idx ci off : Nat}
    (h : s.split chunk idx = some (Sum.inl (ci, off))) :
    ci = idx / chunk ∧ off = idx % chunk ∧
      ci < s.compressed_storage.length := by
  simp only [CVec.split] at h
  by_cases h1 : idx / chunk < s.compressed_storage.length
  · rw [if_pos h1] at h
    simp only [Option.some.injEq, Sum.inl.injEq, Prod.mk.injEq] at h
    exact ⟨h.1.symm, h.2.symm, h.1 ▸ h1⟩
  · rw [if_neg h1] at h
    by_cases h2 : idx / chunk = s.compressed_storage.length ∧
        idx % chunk < s.uncompressed_buffer.length
    · rw [if_pos h2] at h; simp at h
    · rw [if_neg h2] at h; simp at h

theorem CVec.split_eq_inr {chunk : Nat} {s : CVec T} {idx off : Nat}
    (h : s.split chunk idx = some (Sum.inr off)) :
    off = idx % chunk ∧ idx / chunk = s.compressed_storage.length ∧
      off < s.uncompressed_buffer.length := by
  simp only [CVec.split] at h
  by_cases h1 : idx / chunk < s.compressed_storage.length
  · rw [if_pos h1] at h; simp at h
  · rw [if_neg h1] at h
    by_cases h2 : idx / chunk = s.compressed_storage.length ∧
        idx % chunk < s.uncompressed_buffer.length
    · rw [if_pos h2] at h
      simp only [Option.some.injEq, Sum.inr.injEq] at h
      exact ⟨h.symm, h2.1, h ▸ h2.2⟩
    · rw [if_neg h2] at h; simp at h

theorem CVec.split_eq_none {chunk : Nat} {s : CVec T} {idx : Nat}
    (h : s.split chunk idx = none) :
    ¬ idx / chunk < s.compressed_storage.length ∧
    ¬ (idx / chunk = s.compressed_storage.length ∧
        idx % chunk < s.uncompressed_buffer.length) := by
  simp only [CVec.split] at h
  by_cases h1 : idx / chunk < s.compressed_storage.length
  · rw [if_pos h1] at h; simp at h
  · rw [if_neg h1] at h
    by_cases h2 : idx / chunk = s.compressed_storage.length ∧
        idx % chunk < s.uncompressed_buffer.length
    · rw [if_pos h2] at h; simp at h
    · exact ⟨h1, h2⟩

/-! ### `get`/`get_ref` state lemmas -/

theorem Cached.fill_cache_ok {codec : Codec T} {chunk : Nat}
    (c : Cached T) (index : Nat) {data : List Nat}
    (h : (codec.decompress data).length = chunk) :
    c.fill_cache codec chunk index data =
      Except.ok ⟨index, some (codec.decompress data)⟩ := by
  unfold Cached.fill_cache CacheLine.deserialize
  dsimp only
  rw [if_pos h]

theorem Cached.fill_cache_error {codec : Codec T} {chunk : Nat}
    (c : Cached T) (index : Nat) {data : List Nat}
    (h : (codec.decompress data).length ≠ chunk) :
    c.fill_cache codec chunk index data =
      Except.error ⟨(codec.decompress data).length, chunk⟩ := by
  unfold Cached.fill_cache CacheLine.deserialize
  dsimp only
  rw [if_neg h]

theorem CVec.decompress_getD_length {codec : Codec T} {chunk : Nat}
    {s : CVec T} (hc : CVec.ChunksOK codec chunk s) {ci : Nat}
    (h : ci < s.compressed_storage.length) :
    (codec.decompress (s.compressed_storage.getD ci [])).length =
      chunk := by
  rw [List.getD_eq_getElem?_getD, List.getElem?_eq_getElem h]
  exact hc _ (List.getElem_mem h)

theorem CVec.get_eq_get_ref (codec : Codec T) (chunk : Nat) (s : CVec T)
    (idx : Nat) :
    (s.get codec chunk idx).1 = (s.get_ref codec chunk idx).1 ∧
    (s.get codec chunk idx).2 = (s.get_ref codec chunk idx).2.cache := by
  unfold CVec.get CVec.get_ref Cached.get_compressed Entry.borrowCompressed
  cases h : s.split chunk idx with
  | none => exact ⟨rfl, rfl⟩
  | some v =>
    cases v with
    | inl p =>
      obtain ⟨ci, off⟩ := p
      dsimp only
      by_cases hcc : s.cache.is_cached ci = true
      · rw [if_pos hcc, if_pos hcc]
        exact ⟨rfl, rfl⟩
      · rw [if_neg hcc, if_neg hcc, if_neg (by omega : ¬ (0 : Nat) < 0)]
        cases hf : s.cache.fill_cache codec chunk ci
            (s.compressed_storage.getD ci []) with
        | ok inner => exact ⟨rfl, rfl⟩
        | error e => exact ⟨rfl, rfl⟩
    | inr off => exact ⟨rfl, rfl⟩

theorem CVec.get_ref_state (codec : Codec T) (chunk : Nat) (s : CVec T)
    (idx : Nat) :
    (s.get_ref codec chunk idx).2.compressed_storage =
        s.compressed_storage ∧
      (s.get_ref codec chunk idx).2.uncompressed_buffer =
        s.uncompressed_buffer := by
  unfold CVec.get_ref
  cases h : s.split chunk idx with
  | none => exact ⟨rfl, rfl⟩
  | some v =>
    cases v with
    | inl p =>
      obtain ⟨ci, off⟩ := p
      dsimp only
      cases hg : s.cache.get_compressed codec chunk ci off
          (s.compressed_storage.getD ci []) with
      | ok r => exact ⟨rfl, rfl⟩
      | error e => exact ⟨rfl, rfl⟩
    | inr off => exact ⟨rfl, rfl⟩

theorem CVec.get_ref_inv {codec : Codec T} {chunk : Nat} {s : CVec T}
    (idx : Nat) (h : CVec.Inv codec chunk s) :
    CVec.Inv codec chunk (s.get_ref codec chunk idx).2 := by
  obtain ⟨hc, ht, hcache⟩ := h
  unfold CVec.get_ref
  cases hsp : s.split chunk idx with
  | none => exact ⟨hc, ht, hcache⟩
  | some v =>
    cases v with
    | inl p =>
      obtain ⟨ci, off⟩ := p
      obtain ⟨-, -, hci⟩ := CVec.split_eq_inl hsp
      dsimp only
      unfold Cached.get_compressed
      by_cases hcc : s.cache.is_cached ci = true
      · rw [if_pos hcc]
        exact ⟨hc, ht, hcache⟩
      · rw [if_neg hcc,
          Cached.fill_cache_ok s.cache ci
            (CVec.decompress_getD_length hc hci)]
        refine ⟨hc, ht, ?_⟩
        unfold CVec.CacheOK
        intro _
        exact ⟨hci, rfl⟩
    | inr off => exact ⟨hc, ht, hcache⟩

theorem CVec.reachable_inv {codec : Codec T} {chunk : Nat} {lvl : Int}
    {s : CVec T} (hchunk : 0 < chunk)
    (h : CVec.Reachable codec chunk lvl s) : CVec.Inv codec chunk s := by
  induction h with
  | empty => exact CVec.inv_empty codec chunk hchunk
  | push v _ ih => exact CVec.push_inv hchunk ih
  | pop _ ih => exact (CVec.pop_spec hchunk ih).2.2
  | get_ref idx _ ih => exact CVec.get_ref_inv idx ih
  | @get s2 idx hr ih =>
    have hst := CVec.get_ref_state codec chunk s2 idx
    have heq := (CVec.get_eq_get_ref codec chunk s2 idx).2
    have hcache2 := (CVec.get_ref_inv idx ih).2.2
    refine ⟨ih.1, ih.2.1, ?_⟩
    unfold CVec.CacheOK at hcache2 ⊢
    dsimp only
    rw [heq, ← hst.1]
    exact hcache2

/-! ### Index arithmetic over chunked storage -/

theorem getElem?_flatten_chunks (k : Nat) (hk : 0 < k) :
    ∀ (L : List (List T)) (tl : List T),
      (∀ c ∈ L, c.length = k) → ∀ i,
      (L.flatten ++ tl)[i]? =
        if i / k < L.length then (L.getD (i / k) [])[i % k]?
        else tl[i - L.length * k]? := by
  intro L
  induction L with
  | nil => intro tl _ i; simp
  | cons c L ih =>
    intro tl hlen i
    have hc : c.length = k := hlen c (List.mem_cons_self c L)
    rw [List.flatten_cons, List.append_assoc, List.getElem?_append, hc]
    simp only [List.length_cons]
    by_cases hik : i < k
    · rw [if_pos hik]
      have hdiv : i / k = 0 := Nat.div_eq_of_lt hik
      have hmod : i % k = i := Nat.mod_eq_of_lt hik
      rw [hdiv, hmod, if_pos (Nat.succ_pos L.length), List.getD_cons_zero]
    · rw [if_neg hik]
      push_neg at hik
      have hdiv : i / k = (i - k) / k + 1 := Nat.div_eq_sub_div hk hik
      have hmod : i % k = (i - k) % k := Nat.mod_eq_sub_mod hik
      rw [ih tl (fun d hd => hlen d (List.mem_cons_of_mem c hd)) (i - k),
        hdiv, hmod]
      by_cases h2 : (i - k) / k < L.length
      · rw [if_pos h2, if_pos (Nat.add_lt_add_right h2 1),
          List.getD_cons_succ]
      · rw [if_neg h2,
          if_neg (fun hcon => h2 (Nat.lt_of_succ_lt_succ hcon))]
        have harith : i - k - L.length * k = i - (L.length + 1) * k := by
          rw [Nat.succ_mul]
          omega
        rw [harith]

theorem getD_map_lt {f : List Nat → List T} {L : List (List Nat)} {n : Nat}
    (h : n < L.length) :
    (List.map f L).getD n [] = f (L.getD n []) := by
  rw [List.getD_eq_getElem?_getD, List.getD_eq_getElem?_getD,
    List.getElem?_map, List.getElem?_eq_getElem h]
  rfl

theorem CVec.absList_getElem? {codec : Codec T} {chunk : Nat} {s : CVec T}
    (hchunk : 0 < chunk) (hc : CVec.ChunksOK codec chunk s) (i : Nat) :
    (CVec.absList codec s)[i]? =
      if i / chunk < s.compressed_storage.length then
        (codec.decompress
          (s.compressed_storage.getD (i / chunk) []))[i % chunk]?
      else s.uncompressed_buffer[i - s.compressed_storage.length * chunk]? := by
  unfold CVec.absList
  rw [getElem?_flatten_chunks chunk hchunk
    (List.map codec.decompress s.compressed_storage) s.uncompressed_buffer
    (fun d hd => by
      obtain ⟨b, hb, rfl⟩ := List.mem_map.mp hd
      exact hc b hb) i]
  rw [List.length_map]
  by_cases h1 : i / chunk < s.compressed_storage.length
  · rw [if_pos h1, if_pos h1, getD_map_lt h1]
  · rw [if_neg h1, if_neg h1]

/-! ### Value equivalence of the three read paths -/

theorem CVec.get_uncached_eq {codec : Codec T} {chunk : Nat} {s : CVec T}
    (hchunk : 0 < chunk) (h : CVec.Inv codec chunk s) (i : Nat) :
    valOf (s.get_uncached codec chunk i) = (CVec.absList codec s)[i]? := by
  obtain ⟨hc, ht, -⟩ := h
  rw [CVec.absList_getElem? hchunk hc i]
  unfold CVec.get_uncached
  have hmd := Nat.mod_add_div i chunk
  cases hsp : s.split chunk i with
  | none =>
    obtain ⟨h1, h2⟩ := CVec.split_eq_none hsp
    rw [if_neg h1]
    have hout : s.uncompressed_buffer.length ≤
        i - s.compressed_storage.length * chunk := by
      by_cases hd : i / chunk = s.compressed_storage.length
      · have : ¬ i % chunk < s.uncompressed_buffer.length := fun hcon =>
          h2 ⟨hd, hcon⟩
        rw [hd] at hmd
        -- i = i % chunk + chunk * storage.length
        have hmul : chunk * s.compressed_storage.length =
            s.compressed_storage.length * chunk := Nat.mul_comm _ _
        omega
      · have hgt : s.compressed_storage.length < i / chunk := by
          omega
        have : chunk * (s.compressed_storage.length + 1) ≤
            chunk * (i / chunk) := Nat.mul_le_mul_left chunk hgt
        have hmul : chunk * (s.compressed_storage.length + 1) =
            s.compressed_storage.length * chunk + chunk := by ring
        omega
    rw [List.getElem?_eq_none hout]
    rfl
  | some v =>
    cases v with
    | inl p =>
      obtain ⟨ci, off⟩ := p
      obtain ⟨hci, hoff, hlt⟩ := CVec.split_eq_inl hsp
      subst hci; subst hoff
      rw [if_pos hlt]
      unfold valOf
      rw [Option.map_map]
      have : Sum.elim (@id T) id ∘ Sum.inl = id := rfl
      rw [this, Option.map_id]
      rfl
    | inr off =>
      obtain ⟨hoff, hd, hofflt⟩ := CVec.split_eq_inr hsp
      subst hoff
      rw [if_neg (by omega)]
      have harith : i - s.compressed_storage.length * chunk = i % chunk := by
        rw [hd] at hmd
        have hmul : chunk * s.compressed_storage.length =
            s.compressed_storage.length * chunk := Nat.mul_comm _ _
        omega
      rw [harith]
      unfold valOf
      rw [Option.map_map]
      have : Sum.elim (@id T) id ∘ Sum.inr = id := rfl
      rw [this, Option.map_id]
      rfl

theorem CVec.get_ref_val {codec : Codec T} {chunk : Nat} {s : CVec T}
    (h : CVec.Inv codec chunk s) (i : Nat) :
    (s.get_ref codec chunk i).1 = valOf (s.get_uncached codec chunk i) := by
  obtain ⟨hc, ht, hcache⟩ := h
  unfold CVec.get_ref CVec.get_uncached
  cases hsp : s.split chunk i with
  | none => rfl
  | some v =>
    cases v with
    | inr off =>
      dsimp only
      unfold valOf
      rw [Option.map_map]
      have hcomp : Sum.elim (@id T) id ∘ Sum.inr = id := rfl
      rw [hcomp, Option.map_id]
      rfl
    | inl p =>
      obtain ⟨ci, off⟩ := p
      obtain ⟨-, -, hci⟩ := CVec.split_eq_inl hsp
      dsimp only
      unfold Cached.get_compressed
      by_cases hcc : s.cache.is_cached ci = true
      · rw [if_pos hcc]
        have hsome : s.cache.data.isSome = true := by
          unfold Cached.is_cached at hcc
          exact ((Bool.and_eq_true _ _).mp hcc).1
        have hidx : s.cache.index = ci := by
          unfold Cached.is_cached at hcc
          have h2 := ((Bool.and_eq_true _ _).mp hcc).2
          simpa using h2
        obtain ⟨-, hdd⟩ := hcache hsome
        have hdata : s.cache.data.getD [] =
            codec.decompress (s.compressed_storage.getD ci []) := by
          rw [hdd, hidx]
          rfl
        rw [hdata]
        unfold valOf
        rw [Option.map_map]
        have hcomp : Sum.elim (@id T) id ∘ Sum.inl = id := rfl
        rw [hcomp, Option.map_id]
        rfl
      · rw [if_neg hcc,
          Cached.fill_cache_ok s.cache ci
            (CVec.decompress_getD_length hc hci)]
        unfold valOf
        rw [Option.map_map]
        have hcomp : Sum.elim (@id T) id ∘ Sum.inl = id := rfl
        rw [hcomp, Option.map_id]
        rfl

theorem CVec.get_val {codec : Codec T} {chunk : Nat} {s : CVec T}
    (h : CVec.Inv codec chunk s) (i : Nat) :
    (s.get codec chunk i).1 = valOf (s.get_uncached codec chunk i) :=
  ((CVec.get_eq_get_ref codec chunk s i).1).trans (CVec.get_ref_val h i)

/-! ### Borrowing iterator semantics -/

/-- The logical remaining sequence of a borrowing-iterator state: whatever
is left in the current inner iterator, then the not-yet-visited chunks
decoded, then the tail if it has not been passed yet. -/
def CVecIter.rest (codec : Codec T) (s : CVec T) (it : CVecIter T) :
    List T :=
  Sum.elim id id it.iter ++
    (((s.compressed_storage.drop it.chunk_idx).map codec.decompress).flatten
      ++
      (if it.chunk_idx ≤ s.compressed_storage.length then
        s.uncompressed_buffer else []))

theorem CVecIter.rest_intoIter (codec : Codec T) (s : CVec T) :
    CVecIter.rest codec s (CVec.intoIterBorrow s) =
      CVec.absList codec s := by
  unfold CVecIter.rest CVec.intoIterBorrow CVec.absList
  simp

theorem CVecIter.next_rest {codec : Codec T} {chunk : Nat} {s : CVec T}
    (hchunk : 0 < chunk) (hc : CVec.ChunksOK codec chunk s)
    (it : CVecIter T) :
    (CVecIter.next codec s it).1 = (CVecIter.rest codec s it).head? ∧
    CVecIter.rest codec s (CVecIter.next codec s it).2 =
      (CVecIter.rest codec s it).tail := by
  obtain ⟨ci, itr⟩ := it
  have hcur : CVecIter.curLen ⟨ci, itr⟩ =
      (Sum.elim (@id (List T)) id itr).length := by
    cases itr <;> rfl
  by_cases hz : CVecIter.curLen ⟨ci, itr⟩ = 0
  · -- the inner iterator is exhausted: refill or finish
    have helim : Sum.elim (@id (List T)) id itr = [] :=
      List.length_eq_zero.mp (hcur ▸ hz)
    unfold CVecIter.next
    rw [if_pos hz]
    dsimp only
    cases hg : s.compressed_storage[ci]? with
    | some x =>
      have hci : ci < s.compressed_storage.length :=
        (List.getElem?_eq_some_iff.mp hg).1
      have hxmem : x ∈ s.compressed_storage := by
        obtain ⟨h1, h2⟩ := List.getElem?_eq_some_iff.mp hg
        exact h2 ▸ List.getElem_mem h1
      have hxlen : (codec.decompress x).length = chunk := hc x hxmem
      obtain ⟨h1, t1, hdx⟩ : ∃ h1 t1, codec.decompress x = h1 :: t1 := by
        cases hdc : codec.decompress x with
        | nil => rw [hdc] at hxlen; simp at hxlen; omega
        | cons a b => exact ⟨a, b, rfl⟩
      have hdrop : s.compressed_storage.drop ci =
          x :: s.compressed_storage.drop (ci + 1) := by
        obtain ⟨hb, h2⟩ := List.getElem?_eq_some_iff.mp hg
        rw [List.drop_eq_getElem_cons hb, h2]
      have hrest : CVecIter.rest codec s ⟨ci, itr⟩ =
          h1 :: (t1 ++
            (((s.compressed_storage.drop (ci + 1)).map
              codec.decompress).flatten ++
              (if ci + 1 ≤ s.compressed_storage.length then
                s.uncompressed_buffer else []))) := by
        unfold CVecIter.rest
        rw [helim, hdrop, List.map_cons, List.flatten_cons, hdx]
        rw [if_pos (Nat.le_of_lt hci),
          if_pos (by omega : ci + 1 ≤ s.compressed_storage.length)]
        simp [List.append_assoc]
      rw [hrest]
      unfold CVecIter.take
      dsimp only
      rw [hdx]
      refine ⟨rfl, ?_⟩
      unfold CVecIter.rest
      simp only [Sum.elim_inl, id_eq, List.tail_cons]
    | none =>
      have hcige : s.compressed_storage.length ≤ ci :=
        List.getElem?_eq_none_iff.mp hg
      by_cases he : ci = s.compressed_storage.length
      · have hrest : CVecIter.rest codec s ⟨ci, itr⟩ =
            s.uncompressed_buffer := by
          unfold CVecIter.rest
          rw [helim, he, List.drop_length]
          simp
        have hrest2 : CVecIter.rest codec s
            ⟨ci + 1, Sum.inr s.uncompressed_buffer.tail⟩ =
            s.uncompressed_buffer.tail := by
          unfold CVecIter.rest
          dsimp only
          rw [List.drop_eq_nil_of_le (by omega), if_neg (by omega)]
          simp
        rw [if_pos he, hrest]
        unfold CVecIter.take
        dsimp only
        exact ⟨rfl, hrest2⟩
      · rw [if_neg he]
        have hlt : s.compressed_storage.length < ci := by omega
        have hrest : CVecIter.rest codec s ⟨ci, itr⟩ = [] := by
          unfold CVecIter.rest
          dsimp only
          rw [helim, List.drop_eq_nil_of_le (by omega), if_neg (by omega)]
          simp
        rw [hrest]
        exact ⟨rfl, rfl⟩
  · -- the inner iterator still has elements
    obtain ⟨h1, t1, helim⟩ :
        ∃ h1 t1, Sum.elim (@id (List T)) id itr = h1 :: t1 := by
      cases hni : Sum.elim (@id (List T)) id itr with
      | nil => rw [hcur, hni] at hz; simp at hz
      | cons a b => exact ⟨a, b, rfl⟩
    unfold CVecIter.next
    rw [if_neg hz]
    cases itr with
    | inl l =>
      simp only [Sum.elim_inl, id_eq] at helim
      subst helim
      unfold CVecIter.take CVecIter.rest
      exact ⟨rfl, by simp⟩
    | inr l =>
      simp only [Sum.elim_inr, id_eq] at helim
      subst helim
      unfold CVecIter.take CVecIter.rest
      exact ⟨rfl, by simp⟩

theorem CVecIter.collect_rest {codec : Codec T} {chunk : Nat} {s : CVec T}
    (hchunk : 0 < chunk) (hc : CVec.ChunksOK codec chunk s) :
    ∀ (fuel : Nat) (it : CVecIter T),
      (CVecIter.rest codec s it).length ≤ fuel →
      CVecIter.collect codec s fuel it = CVecIter.rest codec s it := by
  intro fuel
  induction fuel with
  | zero =>
    intro it hle
    exact (List.length_eq_zero.mp (Nat.le_zero.mp hle)).symm
  | succ fuel ih =>
    intro it hle
    obtain ⟨hh, htl⟩ := CVecIter.next_rest hchunk hc it
    rcases hn : CVecIter.next codec s it with ⟨o, it2⟩
    rw [hn] at hh htl
    dsimp only at hh htl
    cases hr : CVecIter.rest codec s it with
    | nil =>
      rw [hr] at hh
      have hhn : o = none := hh
      unfold CVecIter.collect
      rw [hn, hhn]
    | cons v r =>
      rw [hr] at hh htl hle
      rw [List.head?_cons] at hh
      rw [List.tail_cons] at htl
      unfold CVecIter.collect
      rw [hn, hh]
      dsimp only
      rw [ih it2 (by rw [htl]; simp at hle; omega), htl]

/-! ### Draining (owning) iterator semantics -/

theorem CVec.drainCollect_spec {codec : Codec T} {chunk : Nat}
    (hchunk : 0 < chunk) :
    ∀ (fuel : Nat) (s : CVec T), CVec.Inv codec chunk s →
      (CVec.absList codec s).length ≤ fuel →
      CVec.drainCollect codec fuel s = (CVec.absList codec s).reverse := by
  intro fuel
  induction fuel with
  | zero =>
    intro s _ hle
    rw [List.length_eq_zero.mp (Nat.le_zero.mp hle)]
    rfl
  | succ fuel ih =>
    intro s hs hle
    obtain ⟨hv, habs, hinv⟩ := CVec.pop_spec hchunk hs
    rcases hp : CVec.pop codec s with ⟨o, s2⟩
    rw [hp] at hv habs hinv
    dsimp only at hv habs hinv
    rcases List.eq_nil_or_concat (CVec.absList codec s) with h0 | ⟨l, a, hcat⟩
    · rw [h0] at hv
      have hvn : o = none := hv
      unfold CVec.drainCollect
      rw [hp, hvn, h0]
      rfl
    · rw [List.concat_eq_append] at hcat
      rw [hcat, List.getLast?_concat] at hv
      rw [hcat, List.dropLast_concat] at habs
      unfold CVec.drainCollect
      rw [hp, hv]
      dsimp only
      rw [ih s2 hinv (by
        rw [habs]
        rw [hcat] at hle
        simp at hle ⊢
        omega)]
      rw [habs, hcat, List.reverse_append]
      simp

/-! ### Shared helper facts for the claim theorems -/

theorem CVec.get_uncached_congr {codec : Codec T} {chunk : Nat}
    {s1 s2 : CVec T} (hs : s1.compressed_storage = s2.compressed_storage)
    (hb : s1.uncompressed_buffer = s2.uncompressed_buffer) (i : Nat) :
    s1.get_uncached codec chunk i = s2.get_uncached codec chunk i := by
  unfold CVec.get_uncached CVec.split
  rw [hs, hb]

/-- A small concrete reachable container: three pushes at chunk capacity 2,
giving one compressed chunk `[10, 20]` and tail `[30]`. -/
def wState : CVec Nat :=
  CVec.push natCodec 2 0
    (CVec.push natCodec 2 0 (CVec.push natCodec 2 0 (CVec.empty Nat) 10) 20)
    30

theorem wState_reachable : CVec.Reachable natCodec 2 0 wState :=
  CVec.Reachable.push 30
    (CVec.Reachable.push 20 (CVec.Reachable.push 10 CVec.Reachable.empty))

/-! ### The claims -/

/-- **C1.** For every finite sequence of push and pop operations from a
newly constructed empty container, every chunk capacity `CHUNK_ELEMS ≥ 1`
and every compression level, the value returned by each pop and the value
of `len()` after each operation are identical to those of a plain
uncompressed vector (push appends at the end, pop removes and returns the
last element) driven by the same operation sequence. -/
theorem cvec_refines_vector (codec : Codec T) (chunk : Nat) (lvl : Int)
    (ops : List (Op T)) (hchunk : 0 < chunk) :
    CVec.trace codec chunk lvl (CVec.empty T) ops = refTrace [] ops := by
  have h := CVec.trace_sim codec chunk lvl hchunk ops (CVec.empty T)
    (CVec.inv_empty codec chunk hchunk)
  simpa [CVec.absList_empty] using h

theorem cvec_refines_vector_witness :
    0 < 2 ∧
    CVec.trace natCodec 2 0 (CVec.empty Nat)
        [Op.push 5, Op.push 7, Op.pop, Op.push 9, Op.pop, Op.pop, Op.pop] =
      refTrace []
        [Op.push 5, Op.push 7, Op.pop, Op.push 9, Op.pop, Op.pop, Op.pop] :=
  ⟨by decide, cvec_refines_vector natCodec 2 0 _ (by decide)⟩

/-- **C2.** On every reachable container with `CHUNK_ELEMS ≥ 1`, for every
index `i`: if `i < len()` then `get_uncached`, `get_ref` and `get` each
return the element the equivalent uncompressed reference sequence
(`CVec.absList`) holds at position `i` — including at chunk/tail boundary
indices, since `i` is arbitrary — and if `i ≥ len()` all three return
`none`, never an error.  The index is resolved by `CVec.split`, the literal
embedding of the rule `chunk_index = i / CHUNK_ELEMS`,
`offset = i % CHUNK_ELEMS`, compressed storage when
`chunk_index < chunks.count`, tail when `chunk_index == chunks.count`
with the offset inside the tail. -/
theorem indexed_reads_agree (codec : Codec T) (chunk : Nat) (lvl : Int)
    (s : CVec T) (hchunk : 0 < chunk)
    (hreach : CVec.Reachable codec chunk lvl s) (i : Nat) :
    (i < s.len chunk →
      valOf (s.get_uncached codec chunk i) = (CVec.absList codec s)[i]? ∧
      (s.get_ref codec chunk i).1 = (CVec.absList codec s)[i]? ∧
      (s.get codec chunk i).1 = (CVec.absList codec s)[i]? ∧
      ((CVec.absList codec s)[i]?).isSome = true) ∧
    (s.len chunk ≤ i →
      s.get_uncached codec chunk i = none ∧
      (s.get_ref codec chunk i).1 = none ∧
      (s.get codec chunk i).1 = none) := by
  have hinv := CVec.reachable_inv hchunk hreach
  have h1 := CVec.get_uncached_eq hchunk hinv i
  have h2 := CVec.get_ref_val hinv i
  have h3 := CVec.get_val hinv i
  have hlen := CVec.length_absList codec chunk s hinv.1
  constructor
  · intro hi
    refine ⟨h1, h2.trans h1, h3.trans h1, ?_⟩
    rw [List.getElem?_eq_getElem (by omega)]
    rfl
  · intro hi
    have hnone : (CVec.absList codec s)[i]? = none :=
      List.getElem?_eq_none (by omega)
    have hval : valOf (s.get_uncached codec chunk i) = none := h1.trans hnone
    exact ⟨Option.map_eq_none'.mp hval, h2.trans hval, h3.trans hval⟩

theorem indexed_reads_agree_witness :
    (0 < 2 ∧ 1 < wState.len 2 ∧ wState.len 2 ≤ 5) ∧
    valOf (wState.get_uncached natCodec 2 1) =
      (CVec.absList natCodec wState)[1]? ∧
    wState.get_uncached natCodec 2 5 = none :=
  ⟨⟨by decide, by decide, by decide⟩,
    ((indexed_reads_agree natCodec 2 0 wState (by decide) wState_reachable
      1).1 (by decide)).1,
    ((indexed_reads_agree natCodec 2 0 wState (by decide) wState_reachable
      5).2 (by decide)).1⟩

/-- **C3.** Serializing the whole container (the serde derive walks the
chunk list and the tail and skips the cache) and deserializing those bytes
yields a container with the same length and the same element at every
index, and the reconstructed container's cache is empty. -/
theorem serialize_round_trip (sc : StructCodec T) (codec : Codec T)
    (chunk : Nat) (lvl : Int) (s : CVec T) :
    (CVec.deserialize sc (CVec.serialize sc s lvl)).len chunk =
      s.len chunk ∧
    (∀ i, (CVec.deserialize sc (CVec.serialize sc s lvl)).get_uncached
        codec chunk i = s.get_uncached codec chunk i) ∧
    (CVec.deserialize sc (CVec.serialize sc s lvl)).cache.data = none := by
  unfold CVec.deserialize CVec.serialize
  rw [sc.round_trip]
  exact ⟨rfl, fun i => CVec.get_uncached_congr rfl rfl i, rfl⟩

/-- **C4.** Every state reachable from the empty container by push and pop
operations has a tail strictly shorter than `CHUNK_ELEMS`, every stored
chunk decodes to exactly `CHUNK_ELEMS` elements, and the logical length
(the length of the represented sequence) equals
`tail.length + chunks.count * CHUNK_ELEMS`. -/
theorem pushpop_invariants (codec : Codec T) (chunk : Nat) (lvl : Int)
    (ops : List (Op T)) (hchunk : 0 < chunk) :
    (CVec.runOps codec chunk lvl (CVec.empty T)
        ops).uncompressed_buffer.length < chunk ∧
    (∀ b ∈ (CVec.runOps codec chunk lvl (CVec.empty T)
        ops).compressed_storage, (codec.decompress b).length = chunk) ∧
    (CVec.absList codec
        (CVec.runOps codec chunk lvl (CVec.empty T) ops)).length =
      (CVec.runOps codec chunk lvl (CVec.empty T)
          ops).uncompressed_buffer.length +
        (CVec.runOps codec chunk lvl (CVec.empty T)
            ops).compressed_storage.length * chunk := by
  obtain ⟨hc, ht, -⟩ := CVec.runOps_inv codec chunk lvl hchunk ops
    (CVec.empty T) (CVec.inv_empty codec chunk hchunk)
  exact ⟨ht, hc, by
    rw [CVec.length_absList codec chunk _ hc]; rfl⟩

theorem pushpop_invariants_witness :
    0 < 2 ∧
    (CVec.runOps natCodec 2 0 (CVec.empty Nat)
        [Op.push 1, Op.push 2, Op.push 3, Op.pop,
          Op.push 4]).uncompressed_buffer.length < 2 :=
  ⟨by decide,
    (pushpop_invariants natCodec 2 0
      [Op.push 1, Op.push 2, Op.push 3, Op.pop, Op.push 4] (by decide)).1⟩

/-- **C5.** On every reachable container, `get_ref` returns the same value
as `get_uncached` at every index — whether the cache is cold or warm, since
reachability includes arbitrary cache-filling `get_ref` steps — a repeated
`get_ref` at the same index returns the same value again, and after any
`pop` (which kills the cache when it consumed the mirrored chunk) the next
`get_ref` at any index still returns the current value, never stale data. -/
theorem cache_transparent (codec : Codec T) (chunk : Nat) (lvl : Int)
    (s : CVec T) (hchunk : 0 < chunk)
    (hreach : CVec.Reachable codec chunk lvl s) (i j : Nat) :
    (s.get_ref codec chunk i).1 = valOf (s.get_uncached codec chunk i) ∧
    ((s.get_ref codec chunk i).2.get_ref codec chunk i).1 =
      (s.get_ref codec chunk i).1 ∧
    ((s.pop codec).2.get_ref codec chunk j).1 =
      valOf ((s.pop codec).2.get_uncached codec chunk j) := by
  have hinv := CVec.reachable_inv hchunk hreach
  have h1 := CVec.get_ref_val hinv i
  refine ⟨h1, ?_, ?_⟩
  · have hinv2 := CVec.get_ref_inv i hinv
    have h2 := CVec.get_ref_val hinv2 i
    have hst := CVec.get_ref_state codec chunk s i
    have hsame := @CVec.get_uncached_congr T codec chunk _ _
      hst.1 hst.2 i
    rw [h2, hsame, h1]
  · exact CVec.get_ref_val (CVec.pop_spec hchunk hinv).2.2 j

theorem cache_transparent_witness :
    0 < 2 ∧
    (wState.get_ref natCodec 2 0).1 =
      valOf (wState.get_uncached natCodec 2 0) ∧
    ((wState.get_ref natCodec 2 0).2.get_ref natCodec 2 0).1 =
      (wState.get_ref natCodec 2 0).1 :=
  ⟨by decide,
    (cache_transparent natCodec 2 0 wState (by decide) wState_reachable
      0 0).1,
    (cache_transparent natCodec 2 0 wState (by decide) wState_reachable
      0 0).2.1⟩

/-- **C7.** On every reachable container, the borrowing iterator obtained
from a shared reference, driven to exhaustion (`len() + 1` calls, the last
returning `None`), yields exactly `len()` items that equal, in order, the
represented sequence — chunks in ascending order, then the tail — and in
particular the element an indexed read returns at every position
`0, …, len()-1`.  `CVecIter.next` never mutates the container (it takes it
immutably in the model, as `&'i CVecInner` does in Rust), so a second fresh
`into_iter` run is the same pure function of `s` and yields the same
sequence. -/
theorem borrowing_iterator_complete (codec : Codec T) (chunk : Nat)
    (lvl : Int) (s : CVec T) (hchunk : 0 < chunk)
    (hreach : CVec.Reachable codec chunk lvl s) :
    CVecIter.collect codec s (s.len chunk + 1) (CVec.intoIterBorrow s) =
      CVec.absList codec s ∧
    (CVecIter.collect codec s (s.len chunk + 1)
        (CVec.intoIterBorrow s)).length = s.len chunk ∧
    ∀ i, i < s.len chunk →
      (CVecIter.collect codec s (s.len chunk + 1)
          (CVec.intoIterBorrow s))[i]? =
        valOf (s.get_uncached codec chunk i) := by
  have hinv := CVec.reachable_inv hchunk hreach
  have hlen := CVec.length_absList codec chunk s hinv.1
  have hcol := CVecIter.collect_rest hchunk hinv.1 (s.len chunk + 1)
    (CVec.intoIterBorrow s)
    (by rw [CVecIter.rest_intoIter, hlen]; omega)
  rw [CVecIter.rest_intoIter] at hcol
  refine ⟨hcol, by rw [hcol, hlen], ?_⟩
  intro i hi
  rw [hcol, CVec.get_uncached_eq hchunk hinv i]

theorem borrowing_iterator_complete_witness :
    0 < 2 ∧
    CVecIter.collect natCodec wState (wState.len 2 + 1)
        (CVec.intoIterBorrow wState) =
      CVec.absList natCodec wState :=
  ⟨by decide,
    (borrowing_iterator_complete natCodec 2 0 wState (by decide)
      wState_reachable).1⟩

/-- The container `[0, 1]` (one full chunk), used to refute the
front-to-back ordering claim for the draining iterator. -/
def drainCex : CVec Nat :=
  CVec.push natCodec 2 0 (CVec.push natCodec 2 0 (CVec.empty Nat) 0) 1

/-- **C8, counterexample.** `CVecIntoIter::next` is `pop`, which removes
the *last* element: draining the container whose sequence is `[0, 1]`
yields `[1, 0]` — the back element first — not `[0, 1]` with the element at
index 0 first as the claim states. -/
theorem draining_iterator_not_front_first :
    CVec.absList natCodec drainCex = [0, 1] ∧
    CVec.drainCollect natCodec 3 drainCex = [1, 0] ∧
    CVec.drainCollect natCodec 3 drainCex ≠ [0, 1] := by decide

/-- **C8 (amended).** The owning draining iterator repeatedly pops: driven
to exhaustion (`len() + 1` calls, the last returning `None`) it yields
exactly `len()` items, namely the container's elements in *back-to-front*
order (the element at index `len()-1` first). -/
theorem draining_iterator_back_to_front (codec : Codec T) (chunk : Nat)
    (lvl : Int) (s : CVec T) (hchunk : 0 < chunk)
    (hreach : CVec.Reachable codec chunk lvl s) :
    CVec.drainCollect codec (s.len chunk + 1) s =
      (CVec.absList codec s).reverse ∧
    (CVec.drainCollect codec (s.len chunk + 1) s).length = s.len chunk := by
  have hinv := CVec.reachable_inv hchunk hreach
  have hlen := CVec.length_absList codec chunk s hinv.1
  have h := CVec.drainCollect_spec hchunk (s.len chunk + 1) s hinv
    (by omega)
  exact ⟨h, by rw [h, List.length_reverse, hlen]⟩

theorem draining_iterator_back_to_front_witness :
    0 < 2 ∧
    CVec.drainCollect natCodec (wState.len 2 + 1) wState =
      (CVec.absList natCodec wState).reverse :=
  ⟨by decide,
    (draining_iterator_back_to_front natCodec 2 0 wState (by decide)
      wState_reachable).1⟩

instance {E A : Type} [DecidableEq E] [DecidableEq A] :
    DecidableEq (Except E A) := fun a b =>
  match a, b with
  | Except.ok x, Except.ok y =>
    if h : x = y then isTrue (by rw [h])
    else isFalse fun hc => h (Except.ok.inj hc)
  | Except.error x, Except.error y =>
    if h : x = y then isTrue (by rw [h])
    else isFalse fun hc => h (Except.error.inj hc)
  | Except.ok _, Except.error _ => isFalse fun hc => Except.noConfusion hc
  | Except.error _, Except.ok _ => isFalse fun hc => Except.noConfusion hc

/-- The corrupt container: its single stored chunk decodes (with
`natCodec`) to one element `[5]`, not the declared `CHUNK_ELEMS = 2`. -/
def corruptState : CVec Nat := ⟨[[0, 5]], [], Cached.init Nat⟩

/-- **C6, counterexample.** Not every chunk-decoding path checks the
length: `pop` and `get_uncached` decode the corrupt chunk into a plain
`Vec` with no length check and silently succeed, returning an element and
surfacing no length-mismatch error, while the cache-fill path
(`CacheLine::deserialize`) on the same bytes does report `observed = 1`,
`expected = 2`. -/
theorem pop_does_not_check_chunk_length :
    (natCodec.decompress [0, 5]).length = 1 ∧
    CVec.pop natCodec corruptState =
      (some 5, ⟨[], [], Cached.init Nat⟩) ∧
    corruptState.get_uncached natCodec 2 0 = some (Sum.inl 5) ∧
    CacheLine.deserialize natCodec 2 [0, 5] = Except.error ⟨1, 2⟩ := by
  decide

/-- **C6 (amended).** Only the cache-fill path checks the element count:
`CacheLine::deserialize` fails with a distinct length-mismatch error
carrying the observed and the expected element count whenever the decoded
count differs from `CHUNK_ELEMS`, and never truncates or pads (on success
it returns the decoded chunk unchanged); `pop` and `get_uncached`, by
contrast, decode a chunk into a plain `Vec` with no length check: `pop`
moves the decoded chunk into the tail as-is and `get_uncached` reads the
offset straight out of the decoded list, whatever its length. -/
theorem cache_fill_length_check (codec : Codec T) (chunk : Nat)
    (bytes : List Nat) :
    ((codec.decompress bytes).length ≠ chunk →
      CacheLine.deserialize codec chunk bytes =
        Except.error ⟨(codec.decompress bytes).length, chunk⟩) ∧
    ((codec.decompress bytes).length = chunk →
      CacheLine.deserialize codec chunk bytes =
        Except.ok (codec.decompress bytes)) ∧
    (∀ s : CVec T, s.uncompressed_buffer = [] →
      s.compressed_storage.getLast? = some bytes →
      (s.pop codec).1 = (codec.decompress bytes).getLast? ∧
      (s.pop codec).2.uncompressed_buffer =
        (codec.decompress bytes).dropLast) ∧
    (∀ (s : CVec T) (idx : Nat),
      idx / chunk < s.compressed_storage.length →
      s.get_uncached codec chunk idx =
        ((codec.decompress
            (s.compressed_storage.getD (idx / chunk) []))[idx % chunk]?).map
          Sum.inl) := by
  refine ⟨?_, ?_, ?_, ?_⟩
  · intro h; unfold CacheLine.deserialize; rw [if_neg h]
  · intro h; unfold CacheLine.deserialize; rw [if_pos h]
  · intro s hub hlast
    obtain ⟨cs0, ub0, c0⟩ := s
    dsimp only at hub hlast
    subst hub
    simp [CVec.pop, hlast]
  · intro s idx h
    unfold CVec.get_uncached CVec.split
    dsimp only
    rw [if_pos h]

theorem cache_fill_length_check_witness :
    ((natCodec.decompress [0, 5]).length ≠ 2 ∧
      (0 : Nat) / 2 < corruptState.compressed_storage.length) ∧
    CacheLine.deserialize natCodec 2 [0, 5] = Except.error ⟨1, 2⟩ ∧
    (CVec.pop natCodec corruptState).1 =
      (natCodec.decompress [0, 5]).getLast? ∧
    corruptState.get_uncached natCodec 2 0 =
      ((natCodec.decompress
          (corruptState.compressed_storage.getD (0 / 2) []))[0 % 2]?).map
        Sum.inl :=
  ⟨⟨by decide, by decide⟩,
    (cache_fill_length_check natCodec 2 [0, 5]).1 (by decide),
    ((cache_fill_length_check natCodec 2 [0, 5]).2.2.1 corruptState rfl
      rfl).1,
    (cache_fill_length_check natCodec 2 [0, 5]).2.2.2 corruptState 0
      (by decide)⟩

/-- **C9.** Under the Shared (`RcCached`, runtime-borrow-checked) strategy,
dereferencing a lazy entry handle that must fill the slot for a not-cached
chunk index while another read handle is alive fails immediately with the
borrow panic (no state is written, no silent aliasing); when no conflicting
handle is alive the fill takes a short exclusive borrow, decodes the chunk
through the length-checked `CacheLine` path — panicking with the
length-mismatch error on a corrupt chunk rather than succeeding — and, on a
well-formed chunk, hands back a shared read borrow (reader count 1) on the
freshly decoded data for the handle's lifetime; a handle for the
already-cached chunk just adds one more reader without re-decoding. -/
theorem shared_cache_borrow_discipline (codec : Codec T) (chunk : Nat)
    (st : RcCached T) (index offset : Nat) (data : List Nat) :
    (st.inner.is_cached index = false → 0 < st.readers →
      Entry.borrowCompressed codec chunk st index offset data =
        Except.error BorrowPanic.alreadyBorrowed) ∧
    (st.inner.is_cached index = false → st.readers = 0 →
      (codec.decompress data).length = chunk →
      Entry.borrowCompressed codec chunk st index offset data =
        Except.ok ((codec.decompress data)[offset]?,
          ⟨⟨index, some (codec.decompress data)⟩, 1⟩)) ∧
    (st.inner.is_cached index = false → st.readers = 0 →
      (codec.decompress data).length ≠ chunk →
      Entry.borrowCompressed codec chunk st index offset data =
        Except.error (BorrowPanic.lengthMismatch
          ⟨(codec.decompress data).length, chunk⟩)) ∧
    (st.inner.is_cached index = true →
      Entry.borrowCompressed codec chunk st index offset data =
        Except.ok ((st.inner.data.getD [])[offset]?,
          ⟨st.inner, st.readers + 1⟩)) := by
  refine ⟨?_, ?_, ?_, ?_⟩
  · intro hnc hr
    unfold Entry.borrowCompressed
    rw [if_neg (by simp [hnc]), if_pos hr]
  · intro hnc hr hlen
    unfold Entry.borrowCompressed
    rw [if_neg (by simp [hnc]), if_neg (by omega),
      Cached.fill_cache_ok st.inner index hlen]
    rfl
  · intro hnc hr hlen
    unfold Entry.borrowCompressed
    rw [if_neg (by simp [hnc]), if_neg (by omega),
      Cached.fill_cache_error st.inner index hlen]
  · intro hc
    unfold Entry.borrowCompressed
    rw [if_pos hc]

theorem shared_cache_borrow_discipline_witness :
    ((⟨⟨0, some [7, 8]⟩, 1⟩ : RcCached Nat).inner.is_cached 1 = false ∧
      0 < (1 : Nat) ∧
      (⟨⟨0, some [7, 8]⟩, 0⟩ : RcCached Nat).inner.is_cached 1 = false ∧
      (natCodec.decompress [0, 9, 9]).length = 2) ∧
    Entry.borrowCompressed natCodec 2 ⟨⟨0, some [7, 8]⟩, 1⟩ 1 0 [0, 9, 9] =
      Except.error BorrowPanic.alreadyBorrowed ∧
    Entry.borrowCompressed natCodec 2 ⟨⟨0, some [7, 8]⟩, 0⟩ 1 0 [0, 9, 9] =
      Except.ok (some 9, ⟨⟨1, some [9, 9]⟩, 1⟩) :=
  ⟨⟨by decide, by decide, by decide, by decide⟩,
    (shared_cache_borrow_discipline natCodec 2 ⟨⟨0, some [7, 8]⟩, 1⟩ 1 0
      [0, 9, 9]).1 (by decide) (by decide),
    (shared_cache_borrow_discipline natCodec 2 ⟨⟨0, some [7, 8]⟩, 0⟩ 1 0
      [0, 9, 9]).2.1 (by decide) (by decide) (by decide)⟩

/-- Two containers with the same logical element sequence `[0, 1]` but
different storage: one compressed chunk versus the bare tail. -/
def eqCexChunked : CVec Nat := ⟨[[0, 0, 1]], [], Cached.init Nat⟩

/-- See `eqCexChunked`. -/
def eqCexTail : CVec Nat := ⟨[], [0, 1], Cached.init Nat⟩

/-- **C10.** `==` on containers reads only the compressed chunk list and
the tail buffer: swapping in arbitrary cache slots does not change the
result, the result is `true` exactly when the chunk bytes and tails are
equal, and it is a byte-level comparison rather than a logical-sequence
comparison — two containers representing the same sequence with different
chunk bytes compare unequal. -/
theorem beq_ignores_cache_and_is_bytewise [DecidableEq T]
    (a b : CVec T) (c1 c2 : Cached T) :
    (CVec.beq ⟨a.compressed_storage, a.uncompressed_buffer, c1⟩
        ⟨b.compressed_storage, b.uncompressed_buffer, c2⟩ =
      CVec.beq a b) ∧
    (CVec.beq a b = true ↔
      (a.compressed_storage = b.compressed_storage ∧
        a.uncompressed_buffer = b.uncompressed_buffer)) ∧
    (CVec.absList natCodec eqCexChunked = CVec.absList natCodec eqCexTail ∧
      CVec.beq eqCexChunked eqCexTail = false) := by
  refine ⟨?_, ?_, ?_, ?_⟩
  · rfl
  · unfold CVec.beq
    rw [Bool.and_eq_true, decide_eq_true_iff, decide_eq_true_iff]
  · decide
  · decide

end CompressedCollections
